import Mathlib

/-!
Verification of the rustbelt analysis engine (crates/librustbelt) against its
natural-language specification.

The Rust code is shallowly embedded: file contents are lists of characters
(byte offsets and character offsets coincide for the ASCII inputs exercised
here), fallible operations return `Except`/`Option`, and the external
collaborators (the semantic DB, the VFS and the line index, which the spec
fixes only at their interface boundaries) are passed in as explicit oracle
arguments so that the control flow of the Query Layer itself is modelled
exactly as written in `analyzer.rs`, `entities.rs` and `utils.rs`.
-/

namespace Rustbelt

/-- File contents and all text are modelled as lists of characters. -/
abbrev Str := List Char

/-! ## Line index (external collaborator)

The line index is part of the external semantic-DB library; the spec (§3)
fixes its contract: it records the byte offset at which every line starts and
converts between absolute offsets and 0-based (line, byte-column) pairs. -/

/-- Offsets at which each line starts: offset 0, and one entry directly after
every newline character. -/
def lineStarts (content : Str) : List Nat :=
  0 :: ((List.range content.length).filter (fun i => content[i]? = some '\n')).map (· + 1)

/-- Modelled from the spec (§3 LineIndex): convert a 0-based (line, column)
pair into an absolute offset; the column is a byte offset within the line and
the result must lie inside the file, otherwise the conversion fails. -/
def lineIndexOffset (content : Str) (line col : Nat) : Option Nat :=
  match (lineStarts content)[line]? with
  | none => none
  | some s => if s + col ≤ content.length then some (s + col) else none

/-- Line (0-based) containing an absolute offset: the number of newline
characters strictly before it. -/
def lineOf (content : Str) (offset : Nat) : Nat :=
  (content.take offset).count '\n'

/-- Start offset of the line containing `offset`. -/
def lineStartOf (content : Str) (offset : Nat) : Nat :=
  ((lineStarts content).filter (· ≤ offset)).foldl max 0

/-- Modelled from the spec (§3 LineIndex): absolute offset to 0-based
(line, byte-column within the line). -/
def lineColOf (content : Str) (offset : Nat) : Nat × Nat :=
  (lineOf content offset, offset - lineStartOf content offset)

/-! ## Rust `str::lines` and `str::trim` -/

/-- Split on every newline character, keeping empty segments; the result always
has one segment more than the number of newlines. -/
def splitOnNl : Str → List Str
  | [] => [[]]
  | c :: rest =>
    if c = '\n' then [] :: splitOnNl rest
    else
      match splitOnNl rest with
      | [] => [[c]]
      | s :: ss => (c :: s) :: ss

/-- Remove one trailing carriage return, if present. -/
def stripCr (l : Str) : Str :=
  match l.getLast? with
  | some '\r' => l.dropLast
  | _ => l

/-- Model of Rust `str::lines`: split on newlines; a final empty segment (from
a trailing newline, or from empty input) yields no line; segments that were
terminated by a newline have a trailing carriage return stripped. -/
def rustLines (content : Str) : List Str :=
  let segs := splitOnNl content
  if segs.getLast? = some ([] : Str) then segs.dropLast.map stripCr
  else segs.dropLast.map stripCr ++ [(segs.getLast?).getD []]

/-- Character class used by Rust `str::trim` (restricted to the ASCII
whitespace relevant here, matching Lean's `Char.isWhitespace`). -/
def isRustWhitespace (c : Char) : Bool := c.isWhitespace

/-- Model of Rust `str::trim`: remove leading and trailing whitespace. -/
def rustTrim (l : Str) : Str :=
  ((l.dropWhile isRustWhitespace).reverse.dropWhile isRustWhitespace).reverse

/-! ## External result schema (entities.rs) -/

/-- Cursor coordinates (entities.rs); `line` and `column` are 1-based and
`symbol` optionally triggers tolerance-box refinement. -/
structure CursorCoordinates where
  file_path : Str
  line : Nat
  column : Nat
  symbol : Option Str
deriving DecidableEq

/-- A single text edit within a file (entities.rs); 1-based half-open
line/column range plus the replacement text. -/
structure TextEdit where
  line : Nat
  column : Nat
  end_line : Nat
  end_column : Nat
  new_text : Str
deriving DecidableEq

/-- Information about a reference location (entities.rs). -/
structure ReferenceInfo where
  file_path : Str
  line : Nat
  column : Nat
  end_line : Nat
  end_column : Nat
  name : Str
  content : Str
  is_definition : Bool
deriving DecidableEq

/-- Information about a definition location (entities.rs); `kind` is kept as a
rendered tag string. -/
structure DefinitionInfo where
  file_path : Str
  line : Nat
  column : Nat
  end_line : Nat
  end_column : Nat
  name : Str
  kind : Option Str
  content : Str
  module : Str
  description : Option Str
deriving DecidableEq

/-- Changes to a single file during rename (entities.rs). -/
structure FileChange where
  file_path : Str
  edits : List TextEdit
deriving DecidableEq

/-- Result of a rename operation (entities.rs `RenameResult`). -/
structure RenameResult where
  file_changes : List FileChange
deriving DecidableEq

/-- Typed rendering of the `anyhow` error messages produced in analyzer.rs,
one constructor per distinct failure site relevant to the claims. -/
inductive AnalyzerError where
  | workspaceAlreadyLoaded (current new : Str)
  | loadFailed (root : Str)
  | fileIdNotInVfs (id : Nat)
  | lineIndexUnavailable (id : Nat)
  | renameQueryFailed (msg : Str)
  | gotoQueryFailed (msg : Str)
  | findRefsQueryFailed (msg : Str)
  | noReferences
  | invalidEditPosition (line column : Nat)
deriving DecidableEq

/-! ## VFS oracle

The VFS is an external collaborator; analyzer.rs only calls `exists` and
`file_path` on it, which is modelled as a finite id → path association. -/

/-- VFS view: the files it knows, as (FileId, absolute path) pairs. -/
abbrev VfsModel := List (Nat × Str)

/-- Combined model of `vfs.exists(id)` followed by `vfs.file_path(id)`. -/
def vfs_file_path (vfs : VfsModel) (id : Nat) : Option Str :=
  (vfs.find? (fun p => p.1 == id)).map (·.2)

/-! ## ensure_project_loaded (analyzer.rs)

State machine of the workspace loader: the engine remembers the project root
it loaded; a successful `load_workspace` is abstracted by the `load_ok`
oracle. The returned Bool records whether this call performed a load. -/

/-- The engine state relevant to workspace loading. -/
structure EngineState where
  current_project_root : Option Str
deriving DecidableEq

/-- Model of `ensure_project_loaded`: if a root is already recorded, the same
root is a no-op and a different root is an error; otherwise the workspace is
loaded (abstracted by `load_ok`) and the root recorded on success. -/
def ensure_project_loaded (load_ok : Str → Bool) (st : EngineState) (project_root : Str) :
    Except AnalyzerError (EngineState × Bool) :=
  match st.current_project_root with
  | some r =>
    if r = project_root then .ok (st, false)
    else .error (.workspaceAlreadyLoaded r project_root)
  | none =>
    if load_ok project_root then .ok (⟨some project_root⟩, true)
    else .error (.loadFailed project_root)

/-- Run a sequence of queries, each resolving to a project root, against the
engine; returns the final state and the number of workspace loads performed.
An error leaves the state untouched, exactly as in `ensure_project_loaded`. -/
def run_queries (load_ok : Str → Bool) : EngineState → List Str → EngineState × Nat
  | st, [] => (st, 0)
  | st, root :: rest =>
    match ensure_project_loaded load_ok st root with
    | .ok (st2, did) =>
      let r := run_queries load_ok st2 rest
      (r.1, (if did then 1 else 0) + r.2)
    | .error _ => run_queries load_ok st rest

/-! ## get_rename_info (analyzer.rs)

The semantic DB's `analysis.rename` returns a nested result: the outer layer
fails when the query itself fails, the inner layer is the rename verdict
(`Result<SourceChange, RenameError>`). Both are modelled as one inductive. -/

/-- A single replacement produced by the DB: delete the range
[`start`, `stop`) and insert `insert` (the `Indel` of the text-edit crate). -/
structure Indel where
  start : Nat
  stop : Nat
  insert : Str
deriving DecidableEq

/-- Source change produced by the DB's rename: per file id, the list of
indels of its text edit. -/
structure SourceChangeM where
  source_file_edits : List (Nat × List Indel)
deriving DecidableEq

/-- Outcome of `analysis.rename(position, new_name)`. -/
inductive RenameDbAnswer where
  | dbFailure (msg : Str)
  | renameError (msg : Str)
  | success (sc : SourceChangeM)
deriving DecidableEq

/-- Translate one DB indel of a file into the external `TextEdit` schema,
converting both endpoints to 1-based line/column via the file's line index. -/
def convert_indel (text : Str) (i : Indel) : TextEdit :=
  let s := lineColOf text i.start
  let e := lineColOf text i.stop
  ⟨s.1 + 1, s.2 + 1, e.1 + 1, e.2 + 1, i.insert⟩

/-- Translate the edits of one file of a source change: resolve the file path
through the VFS (error when absent) and fetch the file's line index (the
`file_text` oracle) to convert every indel. -/
def convert_file_edit (vfs : VfsModel) (file_text : Nat → Option Str) (p : Nat × List Indel) :
    Except AnalyzerError FileChange :=
  match vfs_file_path vfs p.1 with
  | none => .error (.fileIdNotInVfs p.1)
  | some path =>
    match file_text p.1 with
    | none => .error (.lineIndexUnavailable p.1)
    | some text => .ok ⟨path, p.2.map (convert_indel text)⟩

/-- Model of `get_rename_info` after the cursor has been resolved: dispatch on
the DB's rename answer. A failure of the rename query itself is an error; a
rename-verdict error returns `none`; a source change is translated into a
`RenameResult`. -/
def get_rename_info (vfs : VfsModel) (file_text : Nat → Option Str)
    (answer : RenameDbAnswer) : Except AnalyzerError (Option RenameResult) :=
  match answer with
  | .dbFailure msg => .error (.renameQueryFailed msg)
  | .renameError _ => .ok none
  | .success sc =>
    match sc.source_file_edits.mapM (convert_file_edit vfs file_text) with
    | .error e => .error e
    | .ok fcs => .ok (some ⟨fcs⟩)

/-! ## get_definition (analyzer.rs)

The goto-definition call is wrapped in `std::panic::catch_unwind`; its four
possible outcomes (panic, query failure, no targets, targets) are one
inductive. The conversion of each navigation target consults three external
oracles: the VFS, the per-file text (which also stands for availability of
that file's line index, a DB query against the same snapshot) and the DB's
moniker answer. -/

/-- A navigation target returned by the DB's goto-definition. -/
structure NavTarget where
  file_id : Nat
  full_range : Nat × Nat
  focus_range : Option (Nat × Nat)
  name : Str
  kind : Option Str
  container_name : Option Str
  description : Option Str

/-- Model of `NavigationTarget::focus_or_full_range`. -/
def focus_or_full_range (nav : NavTarget) : Nat × Nat :=
  nav.focus_range.getD nav.full_range

/-- First element of the DB's moniker result list. -/
inductive MonikerFirst where
  | moniker (crate_name : Str) (description : List Str)
  | localRef

/-- Outcome of `analysis.moniker(position)`: unavailable covers both a query
failure and an `Ok(None)` answer, which take the same fallback branch. -/
inductive MonikerAnswer where
  | unavailable
  | answered (first : Option MonikerFirst)

/-- Module path computation of `get_definition`: prefer the moniker (crate
name joined with its description parts), fall back to the container name, and
finally to "local" / "unknown". -/
def module_for (ans : MonikerAnswer) (container_name : Option Str) : Str :=
  match ans with
  | .answered (some (.moniker crate parts)) =>
    if parts.isEmpty then crate
    else crate ++ "::".toList ++ List.intercalate "::".toList parts
  | .answered (some .localRef) => container_name.getD "local".toList
  | .answered none => container_name.getD "unknown".toList
  | .unavailable => container_name.getD "unknown".toList

/-- Raw text slice of a target's full range, with the in-band failure strings
of the code when the range does not fit the file text. -/
def slice_content (text : Str) (range : Nat × Nat) : Str :=
  if range.1 < text.length ∧ range.2 ≤ text.length then
    (text.drop range.1).take (range.2 - range.1)
  else
    ("// Content extraction failed: invalid range " ++ toString range.1 ++ ".."
      ++ toString range.2).toList

/-- Convert one navigation target into a `DefinitionInfo`: a target whose line
index is unavailable is silently skipped (`ok none`), a target whose file id
is unknown to the VFS aborts the whole query with an error. -/
def convert_nav (vfs : VfsModel) (file_text : Nat → Option Str)
    (moniker_at : Nat → Nat → MonikerAnswer) (nav : NavTarget) :
    Except AnalyzerError (Option DefinitionInfo) :=
  match file_text nav.file_id with
  | none => .ok none
  | some text =>
    let fr := focus_or_full_range nav
    let s := lineColOf text fr.1
    let e := lineColOf text fr.2
    match vfs_file_path vfs nav.file_id with
    | none => .error (.fileIdNotInVfs nav.file_id)
    | some path =>
      let module := module_for (moniker_at nav.file_id fr.1) nav.container_name
      let content := slice_content text nav.full_range
      .ok (some ⟨path, s.1 + 1, s.2 + 1, e.1 + 1, e.2 + 1, nav.name, nav.kind,
        content, module, nav.description⟩)

/-- Outcome of the panic-wrapped `analysis.goto_definition` call. -/
inductive GotoAnswer where
  | panicked
  | dbError (msg : Str)
  | noTargets
  | targets (navs : List NavTarget)

/-- Fold `convert_nav` over the navigation targets, skipping the skipped ones
and propagating the first error. -/
def collect_definitions (vfs : VfsModel) (file_text : Nat → Option Str)
    (moniker_at : Nat → Nat → MonikerAnswer) :
    List NavTarget → Except AnalyzerError (List DefinitionInfo)
  | [] => .ok []
  | nav :: rest =>
    match convert_nav vfs file_text moniker_at nav with
    | .error e => .error e
    | .ok none => collect_definitions vfs file_text moniker_at rest
    | .ok (some d) =>
      match collect_definitions vfs file_text moniker_at rest with
      | .error e => .error e
      | .ok ds => .ok (d :: ds)

/-- Model of `get_definition` after the cursor has been resolved: dispatch on
the outcome of the panic-wrapped goto-definition call. A caught panic is
demoted to `none`; a query failure is an error; targets are converted. -/
def get_definition (vfs : VfsModel) (file_text : Nat → Option Str)
    (moniker_at : Nat → Nat → MonikerAnswer) (answer : GotoAnswer) :
    Except AnalyzerError (Option (List DefinitionInfo)) :=
  match answer with
  | .panicked => .ok none
  | .dbError msg => .error (.gotoQueryFailed msg)
  | .noTargets => .ok none
  | .targets navs =>
    match collect_definitions vfs file_text moniker_at navs with
    | .error e => .error e
    | .ok ds => .ok (some ds)

/-! ## find_references (analyzer.rs)

The DB's find-all-refs yields search results: an optional declaration plus
reference ranges grouped by file. The assembly loop renders them into
`ReferenceInfo` records, errors on an empty total, and sorts the rest by
(file path, line, column). -/

/-- Declaration part of a search result: the navigation target data that the
assembly loop reads (`focus_or_full_range` already applied). -/
structure DeclData where
  file_id : Nat
  range : Nat × Nat
  name : Str

/-- One search result of `find_all_refs`. -/
structure SearchResultM where
  declaration : Option DeclData
  references : List (Nat × List (Nat × Nat))

/-- Model of the private `get_line_content` helper: the 0-based line of the
file text, or the empty string when the line number is out of range. -/
def get_line_content (file_text : Str) (line_number : Nat) : Str :=
  let lines := rustLines file_text
  match lines[line_number]? with
  | some l => l
  | none => []

/-- Symbol name attached to plain reference records: the declaration's name
when present, "unknown" otherwise. -/
def symbol_name (sr : SearchResultM) : Str :=
  (sr.declaration.map (·.name)).getD "unknown".toList

/-- Render the declaration of a search result, skipping it when its line
index is unavailable or its file id is not in the VFS. -/
def decl_record (vfs : VfsModel) (file_text : Nat → Option Str) (d : DeclData) :
    List ReferenceInfo :=
  match file_text d.file_id with
  | none => []
  | some text =>
    let s := lineColOf text d.range.1
    let e := lineColOf text d.range.2
    match vfs_file_path vfs d.file_id with
    | none => []
    | some path =>
      [⟨path, s.1 + 1, s.2 + 1, e.1 + 1, e.2 + 1, d.name,
        get_line_content text s.1, true⟩]

/-- Render all reference ranges of one file of a search result, skipping the
whole file when its line index, VFS path or text is unavailable. -/
def ref_records_for_file (vfs : VfsModel) (file_text : Nat → Option Str)
    (name : Str) (fid : Nat) (ranges : List (Nat × Nat)) : List ReferenceInfo :=
  match file_text fid, vfs_file_path vfs fid with
  | some text, some path =>
    ranges.map (fun rg =>
      let s := lineColOf text rg.1
      let e := lineColOf text rg.2
      (⟨path, s.1 + 1, s.2 + 1, e.1 + 1, e.2 + 1, name,
        get_line_content text s.1, false⟩ : ReferenceInfo))
  | _, _ => []

/-- Records contributed by one search result: the declaration first, then the
per-file reference ranges. -/
def collect_search_result (vfs : VfsModel) (file_text : Nat → Option Str)
    (sr : SearchResultM) : List ReferenceInfo :=
  (match sr.declaration with
   | some d => decl_record vfs file_text d
   | none => []) ++
  sr.references.flatMap (fun p => ref_records_for_file vfs file_text (symbol_name sr) p.1 p.2)

/-- All records assembled from the DB's search results. -/
def collect_refs (vfs : VfsModel) (file_text : Nat → Option Str)
    (srs : List SearchResultM) : List ReferenceInfo :=
  srs.flatMap (collect_search_result vfs file_text)

/-- Sort key order of the final `sort_by`: by file path, then line, then
column, each ascending. -/
def refLE (a b : ReferenceInfo) : Prop :=
  toLex (a.file_path, toLex (a.line, a.column)) ≤ toLex (b.file_path, toLex (b.line, b.column))

instance : DecidableRel refLE := fun _ _ =>
  inferInstanceAs (Decidable (_ ≤ _))

instance : IsTotal ReferenceInfo refLE :=
  ⟨fun a b => le_total (toLex (a.file_path, toLex (a.line, a.column)) : Lex (Str × Lex (Nat × Nat)))
    (toLex (b.file_path, toLex (b.line, b.column)))⟩

instance : IsTrans ReferenceInfo refLE :=
  ⟨fun _ _ _ hab hbc => le_trans hab hbc⟩

/-- Model of `find_references` after the cursor has been resolved: dispatch on
the outcome of `find_all_refs`, assemble the records, error when none were
produced, and sort the rest (the stable `sort_by` is modelled by insertion
sort with the same key order). -/
def find_references (vfs : VfsModel) (file_text : Nat → Option Str)
    (answer : Except Str (Option (List SearchResultM))) :
    Except AnalyzerError (Option (List ReferenceInfo)) :=
  match answer with
  | .error msg => .error (.findRefsQueryFailed msg)
  | .ok none => .ok none
  | .ok (some srs) =>
    let references := collect_refs vfs file_text srs
    if references.isEmpty then .error .noReferences
    else .ok (some (references.insertionSort refLE))

/-! ## Cursor resolver (entities.rs)

Symbol-assisted refinement of cursor coordinates within a ±5 tolerance box.
Direct embedding of `CursorCoordinates::resolve_coordinates`,
`find_symbol_in_tolerance_box` and `find_symbol_in_line`. -/

/-- The tolerance of the refinement box (entities.rs `TOLERANCE`). -/
def TOLERANCE : Nat := 5

/-- Modulus of the 32-bit unsigned arithmetic of `CursorCoordinates.line`. -/
def U32_MOD : Nat := 4294967296

/-- Model of `line[start..].find(symbol)`: the first index at which `pat`
occurs in `l` as a contiguous sublist (`some 0` for the empty pattern, like
Rust's `str::find`). -/
def findSub : Str → Str → Option Nat
  | l, pat =>
    if pat.isPrefixOf l then some 0
    else
      match l with
      | [] => none
      | _ :: rest => (findSub rest pat).map (· + 1)

/-- The `while let` loop of `find_symbol_in_line`: collect occurrence start
positions from `start` on, advancing one past each hit. The fuel argument
bounds the iteration count; `l.length + 1` fuel is enough for any nonempty
pattern (for the empty pattern the Rust code slices out of bounds and
panics; the model simply stops). -/
def findAllOccAux (l pat : Str) : Nat → Nat → List Nat
  | _, 0 => []
  | start, fuel + 1 =>
    match findSub (l.drop start) pat with
    | none => []
    | some pos => (start + pos) :: findAllOccAux l pat (start + pos + 1) fuel

/-- All occurrence start positions of `pat` in `l`, in increasing order. -/
def findAllOccurrences (l pat : Str) : List Nat :=
  findAllOccAux l pat 0 (l.length + 1)

/-- The fold of `find_symbol_in_line` that keeps the first match whose 1-based
start column is strictly closer to the target column. -/
def closest_fold (target : Nat) (ms : List Nat) (init : Nat) : Nat :=
  ms.foldl (fun best pos =>
    if Nat.dist (pos + 1) target < Nat.dist (best + 1) target then pos else best) init

/-- Model of `find_symbol_in_line`: all occurrences of the symbol in the line;
on the center line the occurrence closest to the requested column wins when
its distance is within tolerance, otherwise (and on off-center lines) the
first occurrence wins. Returns a 1-based column. -/
def find_symbol_in_line (self : CursorCoordinates) (line : Str) (symbol : Str)
    (line_number : Nat) : Option Nat :=
  let ms := findAllOccurrences line symbol
  match ms with
  | [] => none
  | m0 :: _ =>
    if line_number = self.line then
      let closest_pos := closest_fold self.column ms m0
      if Nat.dist (closest_pos + 1) self.column ≤ TOLERANCE then some (closest_pos + 1)
      else some (m0 + 1)
    else some (m0 + 1)

/-- One iteration of the candidate-line generation loop: push the u32 sum
`self.line + offset` when it does not exceed the line count, then push
`line - offset` when `offset ≠ 0`, `offset < line` and the difference is
positive. Both operands of the addition are u32, so near `u32::MAX` a release
build wraps modulo 2^32 (a debug build panics instead); the wrap is modelled,
the subtraction is guarded and cannot wrap. -/
def line_range_step (line numLines : Nat) (acc : List Nat) (offset : Nat) : List Nat :=
  let acc := if (line + offset) % U32_MOD ≤ numLines then acc ++ [(line + offset) % U32_MOD]
    else acc
  if offset ≠ 0 ∧ offset < line then
    if line - offset > 0 then acc ++ [line - offset] else acc
  else acc

/-- Candidate line numbers of the tolerance box, centered at `line` and
expanding outwards, exactly as the generation loop builds them. -/
def line_range_for (line numLines : Nat) : List Nat :=
  (List.range (TOLERANCE + 1)).foldl (line_range_step line numLines) []

/-- Fetch candidate line `n` (1-based) from the split lines; `n = 0` only
arises from a (nonsensical) 0-based input cursor, where the Rust index
`n - 1` wraps around and `lines.get` yields `None`. -/
def get_candidate_line (lines : List Str) (n : Nat) : Option Str :=
  match n with
  | 0 => none
  | m + 1 => lines[m]?

/-- The search loop of `find_symbol_in_tolerance_box` over the candidate
lines: the first line on which the symbol is found produces the refined
coordinates. -/
def search_lines (self : CursorCoordinates) (lines : List Str) (symbol : Str) :
    List Nat → Option CursorCoordinates
  | [] => none
  | n :: rest =>
    match get_candidate_line lines n with
    | some line =>
      match find_symbol_in_line self line symbol n with
      | some column_pos => some ⟨self.file_path, n, column_pos, self.symbol⟩
      | none => search_lines self lines symbol rest
    | none => search_lines self lines symbol rest

/-- Model of `find_symbol_in_tolerance_box`. -/
def find_symbol_in_tolerance_box (self : CursorCoordinates) (file_content : Str)
    (symbol : Str) : Option CursorCoordinates :=
  let lines := rustLines file_content
  search_lines self lines symbol (line_range_for self.line lines.length)

/-- Model of `resolve_coordinates`: refine through the tolerance box when a
symbol is given, otherwise (or when the symbol is not found) return the
original coordinates. -/
def resolve_coordinates (self : CursorCoordinates) (file_content : Str) :
    CursorCoordinates :=
  match self.symbol with
  | some symbol => (find_symbol_in_tolerance_box self file_content symbol).getD self
  | none => self

/-! ## apply_rename_edits (analyzer.rs / utils.rs)

Per file, the edit applier reads the content, converts every edit's 1-based
endpoints to offsets through a fresh line index (failing when an endpoint is
invalid), registers the replacements in a text-edit builder (which sorts by
range and asserts disjointness) and applies the finished edit atomically.
The filesystem is abstracted away: the model transforms one file's content. -/

/-- Model of `line_col_to_offset_with_index`: 1-based (line, column) to
offset, with `saturating_sub` mirrored by truncated subtraction. -/
def line_col_to_offset_with_index (content : Str) (line column : Nat) : Option Nat :=
  lineIndexOffset content (line - 1) (column - 1)

/-- Convert the edits of a file change into indels against `content`,
failing on the first invalid endpoint (the `?` operator) or inverted range
(`TextRange::new` asserts start ≤ end). -/
def convert_edits (content : Str) : List TextEdit → Option (List Indel)
  | [] => some []
  | e :: rest =>
    match line_col_to_offset_with_index content e.line e.column,
          line_col_to_offset_with_index content e.end_line e.end_column with
    | some s, some en =>
      if s ≤ en then (convert_edits content rest).map (fun is => ⟨s, en, e.new_text⟩ :: is)
      else none
    | _, _ => none

/-- Sort order of the text-edit builder: by (range start, range end). -/
def indelLE (a b : Indel) : Prop :=
  toLex (a.start, a.stop) ≤ toLex (b.start, b.stop)

instance : DecidableRel indelLE := fun _ _ =>
  inferInstanceAs (Decidable (_ ≤ _))

/-- Disjointness assertion of the text-edit builder over the sorted indels:
every range must end before the next one starts. -/
def disjoint_chain : List Indel → Bool
  | [] => true
  | [_] => true
  | a :: b :: rest => decide (a.stop ≤ b.start) && disjoint_chain (b :: rest)

/-- Model of `TextEdit::apply` for sorted disjoint indels: the cursor `base`
is the absolute offset at which `content` (the not-yet-consumed suffix)
starts; for each indel, keep the text before its deleted range, emit the
inserted text, and continue right after the range. -/
def applyIndelsFrom : Str → Nat → List Indel → Str
  | content, _, [] => content
  | content, base, i :: rest =>
    content.take (i.start - base) ++ i.insert ++
      applyIndelsFrom (content.drop (i.stop - base)) i.stop rest

/-- Apply sorted disjoint indels to a whole content. -/
def applyIndels (content : Str) (indels : List Indel) : Str :=
  applyIndelsFrom content 0 indels

/-- Per-file core of `apply_rename_edits`: convert, sort, check disjointness
and apply; `none` models an error return or a builder assertion failure. -/
def apply_rename_edits_to_content (content : Str) (edits : List TextEdit) : Option Str :=
  match convert_edits content edits with
  | none => none
  | some indels =>
    let sorted := indels.insertionSort indelLE
    if disjoint_chain sorted then some (applyIndels content sorted) else none

/-- Validity of a sorted indel list against a content of length `len`:
starting at or after `lo`, each deleted range is well formed, lies inside the
content, and ends before the next one starts. This is what the text-edit
builder's sorting plus disjointness assertion establishes. -/
def ChainedFrom (len : Nat) : Nat → List Indel → Prop
  | _, [] => True
  | lo, i :: rest => lo ≤ i.start ∧ i.start ≤ i.stop ∧ i.stop ≤ len ∧ ChainedFrom len i.stop rest

/-! ## Theorems -/

/-- Helper: once a project root is recorded, no query ever performs a load
again (both the same-root no-op and the different-root error leave the state
and the load count untouched). -/
theorem run_queries_loaded_no_loads (lo : Str → Bool) (r : Str) (reqs : List Str) :
    (run_queries lo ⟨some r⟩ reqs).2 = 0 := by
  induction reqs with
  | nil => rfl
  | cons root rest ih =>
    show (match ensure_project_loaded lo ⟨some r⟩ root with
      | .ok (st2, did) =>
        let q := run_queries lo st2 rest
        (q.1, (if did then 1 else 0) + q.2)
      | .error _ => run_queries lo ⟨some r⟩ rest).2 = 0
    by_cases h : r = root
    · subst h
      simp [ensure_project_loaded, ih]
    · simp [ensure_project_loaded, h, ih]

/-- C9: workspace loading happens at most once per engine instance: with a
root already loaded, a query resolving to the same root is a no-op that keeps
the state and performs no load, a query resolving to a different root fails
with the workspace-already-loaded error, and any sequence of queries starting
from a fresh engine performs at most one load in total. -/
theorem workspace_load_at_most_once :
    (∀ (lo : Str → Bool) (st : EngineState) (root : Str),
       st.current_project_root = some root →
       ensure_project_loaded lo st root = .ok (st, false)) ∧
    (∀ (lo : Str → Bool) (st : EngineState) (r root : Str),
       st.current_project_root = some r → r ≠ root →
       ensure_project_loaded lo st root = .error (.workspaceAlreadyLoaded r root)) ∧
    (∀ (lo : Str → Bool) (reqs : List Str), (run_queries lo ⟨none⟩ reqs).2 ≤ 1) := by
  refine ⟨?_, ?_, ?_⟩
  · intro lo st root h
    unfold ensure_project_loaded
    rw [h]
    simp
  · intro lo st r root h hne
    unfold ensure_project_loaded
    rw [h]
    simp [hne]
  · intro lo reqs
    induction reqs with
    | nil => simp [run_queries]
    | cons root rest ih =>
      show (match ensure_project_loaded lo ⟨none⟩ root with
        | .ok (st2, did) =>
          let q := run_queries lo st2 rest
          (q.1, (if did then 1 else 0) + q.2)
        | .error _ => run_queries lo ⟨none⟩ rest).2 ≤ 1
      by_cases h : lo root
      · simp [ensure_project_loaded, h, run_queries_loaded_no_loads]
      · simp [ensure_project_loaded, h, ih]

/-- Witness for the workspace-at-most-once theorem at concrete roots and
query sequences. -/
theorem workspace_load_at_most_once_witness :
    ensure_project_loaded (fun _ => true) ⟨some "/w/a".toList⟩ "/w/a".toList =
      .ok (⟨some "/w/a".toList⟩, false) ∧
    ensure_project_loaded (fun _ => true) ⟨some "/w/a".toList⟩ "/w/b".toList =
      .error (.workspaceAlreadyLoaded "/w/a".toList "/w/b".toList) ∧
    (run_queries (fun _ => true) ⟨none⟩ ["/w/a".toList, "/w/b".toList, "/w/a".toList]).2 ≤ 1 :=
  ⟨workspace_load_at_most_once.1 (fun _ => true) ⟨some "/w/a".toList⟩ "/w/a".toList rfl,
   workspace_load_at_most_once.2.1 (fun _ => true) ⟨some "/w/a".toList⟩ "/w/a".toList
     "/w/b".toList rfl (by decide),
   workspace_load_at_most_once.2.2 (fun _ => true) ["/w/a".toList, "/w/b".toList, "/w/a".toList]⟩

/-- C1 counterexample: a semantic rename failure reported through the DB's
rename verdict (`Err(RenameError)` from `analysis.rename`) makes
`get_rename_info` return `Ok(None)` — not an error carrying the DB's
message, as the claim states. -/
theorem rename_semantic_failure_returns_none :
    get_rename_info [] (fun _ => none) (.renameError "cannot rename this".toList) =
      .ok none := rfl

/-- C1 (amended): every rename-verdict error from the DB — whether the
rename is not possible here or was attempted and failed semantically — makes
`get_rename_info` return `None`; only a failure of the rename query itself
is surfaced as an error. -/
theorem rename_verdict_dispatch (vfs : VfsModel) (file_text : Nat → Option Str) (msg : Str) :
    get_rename_info vfs file_text (.renameError msg) = .ok none ∧
    get_rename_info vfs file_text (.dbFailure msg) = .error (.renameQueryFailed msg) :=
  ⟨rfl, rfl⟩

/-- C2: a panic raised inside the DB's goto-definition call is caught and
converted to the `Ok(None)` result, for every environment the query could
run in; the panic never propagates. -/
theorem get_definition_panic_caught (vfs : VfsModel) (file_text : Nat → Option Str)
    (moniker_at : Nat → Nat → MonikerAnswer) :
    get_definition vfs file_text moniker_at .panicked = .ok none := rfl

/-- C5: whenever the reference assembly produces zero records, the query
returns the no-references error; and a successful result never carries an
empty list. -/
theorem find_references_empty_is_error (vfs : VfsModel) (file_text : Nat → Option Str) :
    (∀ srs : List SearchResultM, collect_refs vfs file_text srs = [] →
       find_references vfs file_text (.ok (some srs)) = .error .noReferences) ∧
    (∀ (answer : Except Str (Option (List SearchResultM))) (out : List ReferenceInfo),
       find_references vfs file_text answer = .ok (some out) → out ≠ []) := by
  constructor
  · intro srs h
    simp [find_references, h]
  · intro answer out h hout
    match answer with
    | .error msg => simp [find_references] at h
    | .ok none => simp [find_references] at h
    | .ok (some srs) =>
      unfold find_references at h
      by_cases he : (collect_refs vfs file_text srs).isEmpty
      · simp [he] at h
      · simp [he] at h
        have hperm := List.perm_insertionSort refLE (collect_refs vfs file_text srs)
        rw [h] at hperm
        rw [hout] at hperm
        have := hperm.length_eq
        simp at this
        simp [List.isEmpty_iff] at he
        exact he (List.length_eq_zero.mp this.symm)

/-- Witness for the empty-result error: a concrete search result whose only
candidate record is skipped (its file id is unknown to the VFS) triggers the
no-references error. -/
theorem find_references_empty_is_error_witness :
    collect_refs [] (fun _ => none) [⟨some ⟨0, (0, 1), "x".toList⟩, []⟩] = [] ∧
    find_references [] (fun _ => none) (.ok (some [⟨some ⟨0, (0, 1), "x".toList⟩, []⟩])) =
      .error .noReferences :=
  ⟨rfl, (find_references_empty_is_error [] (fun _ => none)).1 _ rfl⟩

/-- C4: every successful find_references result is sorted in ascending
lexicographic order by (file path, line, column). -/
theorem find_references_sorted (vfs : VfsModel) (file_text : Nat → Option Str)
    (answer : Except Str (Option (List SearchResultM))) (out : List ReferenceInfo)
    (h : find_references vfs file_text answer = .ok (some out)) :
    out.Sorted refLE := by
  match answer with
  | .error msg => simp [find_references] at h
  | .ok none => simp [find_references] at h
  | .ok (some srs) =>
    unfold find_references at h
    by_cases he : (collect_refs vfs file_text srs).isEmpty
    · simp [he] at h
    · simp [he] at h
      rw [← h]
      exact List.sorted_insertionSort refLE (collect_refs vfs file_text srs)

/-- Witness for the reference sort: a concrete query whose raw records are
assembled out of order comes back sorted. -/
theorem find_references_sorted_witness :
    find_references [(0, "/w/m.rs".toList)]
        (fun id => if id == 0 then some "let a = 1;\nuse a;".toList else none)
        (.ok (some [⟨some ⟨0, (4, 5), "a".toList⟩, [(0, [(15, 16), (4, 5)])]⟩])) =
      .ok (some
        [⟨"/w/m.rs".toList, 1, 5, 1, 6, "a".toList, "let a = 1;".toList, true⟩,
         ⟨"/w/m.rs".toList, 1, 5, 1, 6, "a".toList, "let a = 1;".toList, false⟩,
         ⟨"/w/m.rs".toList, 2, 5, 2, 6, "a".toList, "use a;".toList, false⟩]) ∧
    List.Sorted refLE
        [(⟨"/w/m.rs".toList, 1, 5, 1, 6, "a".toList, "let a = 1;".toList, true⟩ : ReferenceInfo),
         ⟨"/w/m.rs".toList, 1, 5, 1, 6, "a".toList, "let a = 1;".toList, false⟩,
         ⟨"/w/m.rs".toList, 2, 5, 2, 6, "a".toList, "use a;".toList, false⟩] :=
  ⟨rfl,
   find_references_sorted [(0, "/w/m.rs".toList)]
     (fun id => if id == 0 then some "let a = 1;\nuse a;".toList else none)
     (.ok (some [⟨some ⟨0, (4, 5), "a".toList⟩, [(0, [(15, 16), (4, 5)])]⟩]))
     [⟨"/w/m.rs".toList, 1, 5, 1, 6, "a".toList, "let a = 1;".toList, true⟩,
      ⟨"/w/m.rs".toList, 1, 5, 1, 6, "a".toList, "let a = 1;".toList, false⟩,
      ⟨"/w/m.rs".toList, 2, 5, 2, 6, "a".toList, "use a;".toList, false⟩] rfl⟩

/-- C6 counterexample: a reference on an indented line comes back with the
full line as its content, which differs from the trimmed source text of that
line claimed by the spec. -/
theorem reference_content_not_trimmed :
    find_references [(0, "/w/a.rs".toList)]
        (fun id => if id == 0 then some "  foo".toList else none)
        (.ok (some [⟨none, [(0, [(2, 5)])]⟩])) =
      .ok (some [⟨"/w/a.rs".toList, 1, 3, 1, 6, "unknown".toList, "  foo".toList, false⟩]) ∧
    rustTrim "  foo".toList ≠ ("  foo".toList : Str) :=
  ⟨rfl, by decide⟩

/-- Helper: a declaration record's content is the untrimmed text of the line
the record points at. -/
theorem decl_record_content (vfs : VfsModel) (file_text : Nat → Option Str) (d : DeclData)
    (r : ReferenceInfo) (h : r ∈ decl_record vfs file_text d) :
    ∃ text, vfs_file_path vfs d.file_id = some r.file_path ∧
      file_text d.file_id = some text ∧ r.content = get_line_content text (r.line - 1) := by
  unfold decl_record at h
  cases hft : file_text d.file_id with
  | none => rw [hft] at h; simp at h
  | some text =>
    rw [hft] at h
    cases hvp : vfs_file_path vfs d.file_id with
    | none => rw [hvp] at h; simp at h
    | some path =>
      rw [hvp] at h
      simp at h
      subst h
      exact ⟨text, rfl, rfl, by simp⟩

/-- Helper: a plain reference record's content is the untrimmed text of the
line the record points at. -/
theorem ref_records_content (vfs : VfsModel) (file_text : Nat → Option Str) (name : Str)
    (fid : Nat) (ranges : List (Nat × Nat)) (r : ReferenceInfo)
    (h : r ∈ ref_records_for_file vfs file_text name fid ranges) :
    ∃ text, vfs_file_path vfs fid = some r.file_path ∧
      file_text fid = some text ∧ r.content = get_line_content text (r.line - 1) := by
  unfold ref_records_for_file at h
  cases hft : file_text fid with
  | none => rw [hft] at h; simp at h
  | some text =>
    rw [hft] at h
    cases hvp : vfs_file_path vfs fid with
    | none => rw [hvp] at h; simp at h
    | some path =>
      rw [hvp] at h
      simp only [List.mem_map] at h
      obtain ⟨rg, _, hr⟩ := h
      subst hr
      exact ⟨text, rfl, rfl, by simp⟩

/-- C6 (amended): every reference record returned by the assembly carries as
content the full, untrimmed text of the line containing the reference in the
file the record points into (trimming happens only in the Display
rendering). -/
theorem reference_content_untrimmed_line (vfs : VfsModel) (file_text : Nat → Option Str)
    (srs : List SearchResultM) (r : ReferenceInfo) (h : r ∈ collect_refs vfs file_text srs) :
    ∃ fid text, vfs_file_path vfs fid = some r.file_path ∧
      file_text fid = some text ∧ r.content = get_line_content text (r.line - 1) := by
  unfold collect_refs at h
  rw [List.mem_flatMap] at h
  obtain ⟨sr, _, hr⟩ := h
  unfold collect_search_result at hr
  rw [List.mem_append] at hr
  rcases hr with hd | hrf
  · match hdecl : sr.declaration with
    | none => rw [hdecl] at hd; simp at hd
    | some d =>
      rw [hdecl] at hd
      obtain ⟨text, h1, h2, h3⟩ := decl_record_content vfs file_text d r hd
      exact ⟨d.file_id, text, h1, h2, h3⟩
  · rw [List.mem_flatMap] at hrf
    obtain ⟨p, _, hp⟩ := hrf
    obtain ⟨text, h1, h2, h3⟩ := ref_records_content vfs file_text (symbol_name sr) p.1 p.2 r hp
    exact ⟨p.1, text, h1, h2, h3⟩

/-- Witness for the untrimmed-line content theorem at the concrete indented
reference. -/
theorem reference_content_untrimmed_line_witness :
    (⟨"/w/a.rs".toList, 1, 3, 1, 6, "unknown".toList, "  foo".toList, false⟩ : ReferenceInfo) ∈
      collect_refs [(0, "/w/a.rs".toList)]
        (fun id => if id == 0 then some "  foo".toList else none)
        [⟨none, [(0, [(2, 5)])]⟩] ∧
    ∃ fid text, vfs_file_path [(0, "/w/a.rs".toList)] fid = some "/w/a.rs".toList ∧
      (if fid == 0 then some "  foo".toList else none) = some text ∧
      ("  foo".toList : Str) = get_line_content text 0 :=
  ⟨by decide,
   reference_content_untrimmed_line [(0, "/w/a.rs".toList)]
     (fun id => if id == 0 then some "  foo".toList else none)
     [⟨none, [(0, [(2, 5)])]⟩]
     ⟨"/w/a.rs".toList, 1, 3, 1, 6, "unknown".toList, "  foo".toList, false⟩
     (by decide)⟩

/-- Helper: a successful tolerance-box search preserves the cursor's file
path and symbol and returns a line drawn from the candidate list. -/
theorem search_lines_some (self : CursorCoordinates) (lines : List Str) (symbol : Str)
    (cands : List Nat) (c : CursorCoordinates)
    (h : search_lines self lines symbol cands = some c) :
    c.file_path = self.file_path ∧ c.symbol = self.symbol ∧ c.line ∈ cands := by
  induction cands with
  | nil => simp [search_lines] at h
  | cons n rest ih =>
    unfold search_lines at h
    cases hg : get_candidate_line lines n with
    | none =>
      rw [hg] at h
      dsimp only at h
      obtain ⟨h1, h2, h3⟩ := ih h
      exact ⟨h1, h2, List.mem_cons_of_mem _ h3⟩
    | some line =>
      rw [hg] at h
      dsimp only at h
      cases hf : find_symbol_in_line self line symbol n with
      | none =>
        rw [hf] at h
        dsimp only at h
        obtain ⟨h1, h2, h3⟩ := ih h
        exact ⟨h1, h2, List.mem_cons_of_mem _ h3⟩
      | some column_pos =>
        rw [hf] at h
        dsimp only at h
        cases h
        exact ⟨rfl, rfl, List.mem_cons_self _ _⟩

/-- Helper: one step of the candidate-line generation only adds the wrapped
u32 sum `(line + o) % 2^32`, or `line - o` under the guard `o < line`. -/
theorem line_range_step_bounds (line numLines : Nat) (acc : List Nat) (offset : Nat)
    (x : Nat) (hx : x ∈ line_range_step line numLines acc offset) :
    x ∈ acc ∨ x = (line + offset) % U32_MOD ∨ (offset < line ∧ x = line - offset) := by
  unfold line_range_step at hx
  by_cases h2 : offset ≠ 0 ∧ offset < line
  · have h3 : line - offset > 0 := by omega
    by_cases h1 : (line + offset) % U32_MOD ≤ numLines
    · simp [h1, h2, h3] at hx
      tauto
    · simp [h1, h2, h3] at hx
      tauto
  · by_cases h1 : (line + offset) % U32_MOD ≤ numLines
    · simp [h1, h2] at hx
      tauto
    · simp [h1, h2] at hx
      tauto

/-- Helper: when the u32 additions of the generation loop cannot wrap
(`line + TOLERANCE < 2^32`), every candidate line lies within the ±TOLERANCE
box around the requested line. -/
theorem line_range_for_bounds (line numLines : Nat) (hno : line + TOLERANCE < U32_MOD)
    (x : Nat) (hx : x ∈ line_range_for line numLines) :
    x ≤ line + TOLERANCE ∧ line ≤ x + TOLERANCE := by
  unfold line_range_for at hx
  have key : ∀ (l : List Nat) (acc : List Nat),
      (∀ o ∈ l, o ≤ TOLERANCE) →
      (∀ y ∈ acc, y ≤ line + TOLERANCE ∧ line ≤ y + TOLERANCE) →
      ∀ y ∈ l.foldl (line_range_step line numLines) acc,
        y ≤ line + TOLERANCE ∧ line ≤ y + TOLERANCE := by
    intro l
    induction l with
    | nil => intro acc _ hacc y hy; exact hacc y hy
    | cons o os ih =>
      intro acc hl hacc y hy
      simp only [List.foldl_cons] at hy
      refine ih _ (fun o' ho' => hl o' (List.mem_cons_of_mem _ ho')) ?_ y hy
      intro z hz
      have ho : o ≤ TOLERANCE := hl o (List.mem_cons_self _ _)
      rcases line_range_step_bounds line numLines acc o z hz with h | h | ⟨hlt, h⟩
      · exact hacc z h
      · have hsum : (line + o) % U32_MOD = line + o := Nat.mod_eq_of_lt (by omega)
        rw [hsum] at h
        omega
      · omega
  refine key _ [] (fun o ho => ?_) (by simp) x hx
  have := List.mem_range.mp ho
  omega

/-- C10: cursor refinement only moves the line and column; the returned
coordinates always keep the input cursor's file path and symbol. -/
theorem resolve_coordinates_frame (cursor : CursorCoordinates) (content : Str) :
    (resolve_coordinates cursor content).file_path = cursor.file_path ∧
    (resolve_coordinates cursor content).symbol = cursor.symbol := by
  cases hs : cursor.symbol with
  | none =>
    have hres : resolve_coordinates cursor content = cursor := by
      unfold resolve_coordinates
      rw [hs]
    rw [hres]
    simp [hs]
  | some s =>
    have hres : resolve_coordinates cursor content =
        (find_symbol_in_tolerance_box cursor content s).getD cursor := by
      unfold resolve_coordinates
      rw [hs]
    cases hb : find_symbol_in_tolerance_box cursor content s with
    | none =>
      rw [hres, hb]
      simp [hs]
    | some c =>
      rw [hres, hb]
      simp only [Option.getD_some]
      have hb2 := hb
      unfold find_symbol_in_tolerance_box at hb2
      obtain ⟨h1, h2, _⟩ := search_lines_some cursor (rustLines content) s _ c hb2
      exact ⟨h1, h2.trans hs⟩

/-- C7 counterexample: at the largest u32 line, the candidate generation
wraps (release semantics): the cursor (line u32::MAX, symbol "foo") over the
one-line file "foo" is refined to line 1, which violates the ±TOLERANCE box
around the requested line. -/
theorem resolve_coordinates_tolerance_overflow :
    (resolve_coordinates ⟨"/f.rs".toList, 4294967295, 1, some "foo".toList⟩
        "foo".toList).line = 1 ∧
    ¬ (4294967295 : Nat) ≤
      (resolve_coordinates ⟨"/f.rs".toList, 4294967295, 1, some "foo".toList⟩
        "foo".toList).line + TOLERANCE := by
  refine ⟨rfl, by decide⟩

/-- C7 (amended): with a symbol set, whenever the requested line is small
enough that the u32 candidate additions cannot wrap
(`line + TOLERANCE < 2^32`), the refined line stays within the ±TOLERANCE
box around the requested line; and (unconditionally) when no candidate line
contains the symbol the original coordinates are returned unchanged. -/
theorem resolve_coordinates_tolerance (cursor : CursorCoordinates) (content : Str) (s : Str)
    (hs : cursor.symbol = some s) (hno : cursor.line + TOLERANCE < U32_MOD) :
    ((resolve_coordinates cursor content).line ≤ cursor.line + TOLERANCE ∧
      cursor.line ≤ (resolve_coordinates cursor content).line + TOLERANCE) ∧
    (find_symbol_in_tolerance_box cursor content s = none →
      resolve_coordinates cursor content = cursor) := by
  have hres : resolve_coordinates cursor content =
      (find_symbol_in_tolerance_box cursor content s).getD cursor := by
    unfold resolve_coordinates
    rw [hs]
  constructor
  · cases hb : find_symbol_in_tolerance_box cursor content s with
    | none =>
      rw [hres, hb]
      exact ⟨Nat.le_add_right _ _, Nat.le_add_right _ _⟩
    | some c =>
      rw [hres, hb]
      have hb2 := hb
      unfold find_symbol_in_tolerance_box at hb2
      obtain ⟨_, _, hmem⟩ := search_lines_some cursor (rustLines content) s _ c hb2
      have hbounds :=
        line_range_for_bounds cursor.line (rustLines content).length hno c.line hmem
      exact ⟨hbounds.1, hbounds.2⟩
  · intro hnone
    rw [hres, hnone]
    rfl

/-- Witness for the tolerance theorem: a cursor one line off the actual
occurrence of "foo", far from the u32 overflow region, is refined within the
box. -/
theorem resolve_coordinates_tolerance_witness :
    ((resolve_coordinates ⟨"/f.rs".toList, 2, 1, some "foo".toList⟩ "bar\nfoo".toList).line ≤
        2 + TOLERANCE ∧
      2 ≤ (resolve_coordinates ⟨"/f.rs".toList, 2, 1, some "foo".toList⟩ "bar\nfoo".toList).line +
        TOLERANCE) ∧
    (find_symbol_in_tolerance_box ⟨"/f.rs".toList, 2, 1, some "foo".toList⟩ "bar\nfoo".toList
        "foo".toList = none →
      resolve_coordinates ⟨"/f.rs".toList, 2, 1, some "foo".toList⟩ "bar\nfoo".toList =
        ⟨"/f.rs".toList, 2, 1, some "foo".toList⟩) :=
  resolve_coordinates_tolerance ⟨"/f.rs".toList, 2, 1, some "foo".toList⟩ "bar\nfoo".toList
    "foo".toList rfl (by decide)

/-- Helper: one unfolding step of the closest-match fold. -/
theorem closest_fold_cons (target m init : Nat) (rest : List Nat) :
    closest_fold target (m :: rest) init =
      closest_fold target rest
        (if Nat.dist (m + 1) target < Nat.dist (init + 1) target then m else init) := rfl

/-- Helper: the closest-match fold returns its initial value or an element of
the list. -/
theorem closest_fold_mem (target : Nat) (ms : List Nat) (init : Nat) :
    closest_fold target ms init = init ∨ closest_fold target ms init ∈ ms := by
  induction ms generalizing init with
  | nil => exact Or.inl rfl
  | cons m rest ih =>
    rw [closest_fold_cons]
    by_cases h : Nat.dist (m + 1) target < Nat.dist (init + 1) target
    · rw [if_pos h]
      rcases ih m with h2 | h2
      · right
        rw [h2]
        exact List.mem_cons_self _ _
      · exact Or.inr (List.mem_cons_of_mem _ h2)
    · rw [if_neg h]
      rcases ih init with h2 | h2
      · exact Or.inl h2
      · exact Or.inr (List.mem_cons_of_mem _ h2)

/-- Helper: the closest-match fold minimizes the distance of the 1-based
column to the target over the initial value and every element. -/
theorem closest_fold_min (target : Nat) (ms : List Nat) (init : Nat) :
    Nat.dist (closest_fold target ms init + 1) target ≤ Nat.dist (init + 1) target ∧
    ∀ m ∈ ms, Nat.dist (closest_fold target ms init + 1) target ≤ Nat.dist (m + 1) target := by
  induction ms generalizing init with
  | nil => exact ⟨le_refl _, by simp⟩
  | cons m rest ih =>
    rw [closest_fold_cons]
    by_cases h : Nat.dist (m + 1) target < Nat.dist (init + 1) target
    · rw [if_pos h]
      obtain ⟨h1, h2⟩ := ih m
      refine ⟨le_trans h1 (le_of_lt h), fun m' hm' => ?_⟩
      rcases List.mem_cons.mp hm' with rfl | hm'
      · exact h1
      · exact h2 m' hm'
    · rw [if_neg h]
      obtain ⟨h1, h2⟩ := ih init
      refine ⟨h1, fun m' hm' => ?_⟩
      rcases List.mem_cons.mp hm' with rfl | hm'
      · exact le_trans h1 (not_lt.mp h)
      · exact h2 m' hm'

/-- C8: on the center line, when the symbol occurs there, the refined column
is the 1-based start column of a closest occurrence to the requested column
whenever that distance is within tolerance, and otherwise the 1-based start
column of the first occurrence on the line. -/
theorem find_symbol_in_line_center (self : CursorCoordinates) (line s : Str)
    (m0 : Nat) (ms : List Nat) (hocc : findAllOccurrences line s = m0 :: ms)
    (c : Nat) (h : find_symbol_in_line self line s self.line = some c) :
    (Nat.dist c self.column ≤ TOLERANCE ∧ (c - 1) ∈ findAllOccurrences line s ∧
      (∀ m ∈ findAllOccurrences line s,
        Nat.dist c self.column ≤ Nat.dist (m + 1) self.column)) ∨
    ((∀ m ∈ findAllOccurrences line s,
        TOLERANCE < Nat.dist (m + 1) self.column) ∧ c = m0 + 1) := by
  unfold find_symbol_in_line at h
  rw [hocc] at h
  dsimp only at h
  rw [if_pos rfl] at h
  by_cases hd : Nat.dist (closest_fold self.column (m0 :: ms) m0 + 1) self.column ≤ TOLERANCE
  · rw [if_pos hd] at h
    cases h
    left
    refine ⟨hd, ?_, ?_⟩
    · rw [hocc]
      simp only [Nat.add_sub_cancel]
      rcases closest_fold_mem self.column (m0 :: ms) m0 with h2 | h2
      · rw [h2]
        exact List.mem_cons_self _ _
      · exact h2
    · intro m hm
      rw [hocc] at hm
      obtain ⟨h1, h2⟩ := closest_fold_min self.column (m0 :: ms) m0
      exact h2 m hm
  · rw [if_neg hd] at h
    cases h
    right
    refine ⟨?_, rfl⟩
    intro m hm
    rw [hocc] at hm
    obtain ⟨_, h2⟩ := closest_fold_min self.column (m0 :: ms) m0
    have := h2 m hm
    omega

/-- Witness for the center-line column selection: in "ab ab ab" with the
cursor at column 5, the middle occurrence (column 4) is the closest and is
within tolerance. -/
theorem find_symbol_in_line_center_witness :
    (Nat.dist 4 5 ≤ TOLERANCE ∧ (4 - 1) ∈ findAllOccurrences "ab ab ab".toList "ab".toList ∧
      (∀ m ∈ findAllOccurrences "ab ab ab".toList "ab".toList,
        Nat.dist 4 5 ≤ Nat.dist (m + 1) 5)) ∨
    ((∀ m ∈ findAllOccurrences "ab ab ab".toList "ab".toList,
        TOLERANCE < Nat.dist (m + 1) 5) ∧ 4 = 0 + 1) :=
  find_symbol_in_line_center ⟨"/f.rs".toList, 1, 5, some "ab".toList⟩
    "ab ab ab".toList "ab".toList 0 [3, 6] (by decide) 4 (by decide)

/-- C3 counterexample: a two-edit rename plan that replaces two occurrences
of "a" by "bb" applies cleanly to its plan-time contents, but applying the
same plan again to the result succeeds and corrupts the text instead of
being a no-op. -/
theorem apply_rename_edits_not_idempotent :
    apply_rename_edits_to_content "a a".toList
        [⟨1, 1, 1, 2, "bb".toList⟩, ⟨1, 3, 1, 4, "bb".toList⟩] = some "bb bb".toList ∧
    apply_rename_edits_to_content "bb bb".toList
        [⟨1, 1, 1, 2, "bb".toList⟩, ⟨1, 3, 1, 4, "bb".toList⟩] = some "bbbbbbb".toList ∧
    ("bbbbbbb".toList : Str) ≠ "bb bb".toList := by
  refine ⟨rfl, rfl, by decide⟩

/-- Helper: a successful line-index offset lies inside the content. -/
theorem lineIndexOffset_le (content : Str) (line col off : Nat)
    (h : lineIndexOffset content line col = some off) : off ≤ content.length := by
  unfold lineIndexOffset at h
  cases hg : (lineStarts content)[line]? with
  | none => rw [hg] at h; cases h
  | some s =>
    rw [hg] at h
    dsimp only at h
    by_cases hle : s + col ≤ content.length
    · rw [if_pos hle] at h
      cases h
      exact hle
    · rw [if_neg hle] at h
      cases h

/-- Helper: every indel produced by the edit conversion has a well-formed
range inside the content. -/
theorem convert_edits_mem (content : Str) (edits : List TextEdit) (indels : List Indel)
    (h : convert_edits content edits = some indels) :
    ∀ i ∈ indels, i.start ≤ i.stop ∧ i.stop ≤ content.length := by
  induction edits generalizing indels with
  | nil =>
    unfold convert_edits at h
    cases h
    simp
  | cons e rest ih =>
    unfold convert_edits at h
    cases hs : line_col_to_offset_with_index content e.line e.column with
    | none => rw [hs] at h; cases h
    | some s =>
      rw [hs] at h
      cases hen : line_col_to_offset_with_index content e.end_line e.end_column with
      | none => rw [hen] at h; cases h
      | some en =>
        rw [hen] at h
        dsimp only at h
        by_cases hle : s ≤ en
        · rw [if_pos hle] at h
          cases hr : convert_edits content rest with
          | none => rw [hr] at h; cases h
          | some is =>
            rw [hr] at h
            cases h
            intro i hi
            rcases List.mem_cons.mp hi with rfl | hi
            · exact ⟨hle, lineIndexOffset_le content (e.end_line - 1) (e.end_column - 1) en hen⟩
            · exact ih is hr i hi
        · rw [if_neg hle] at h
          cases h

/-- Helper: the edit conversion depends on the content only through its line
starts and its length. -/
theorem convert_edits_congr (a b : Str) (hlen : a.length = b.length)
    (hls : lineStarts a = lineStarts b) (edits : List TextEdit) :
    convert_edits a edits = convert_edits b edits := by
  have hoff : ∀ line col, lineIndexOffset a line col = lineIndexOffset b line col := by
    intro line col
    unfold lineIndexOffset
    rw [hls, hlen]
  induction edits with
  | nil => rfl
  | cons e rest ih =>
    unfold convert_edits
    unfold line_col_to_offset_with_index
    rw [hoff (e.line - 1) (e.column - 1), hoff (e.end_line - 1) (e.end_column - 1), ih]

/-- Helper: decomposition of the disjointness check. -/
theorem disjoint_chain_cons (a : Indel) (l : List Indel)
    (h : disjoint_chain (a :: l) = true) :
    disjoint_chain l = true ∧ ∀ b, l.head? = some b → a.stop ≤ b.start := by
  cases l with
  | nil => exact ⟨rfl, by intro b hb; cases hb⟩
  | cons b rest =>
    unfold disjoint_chain at h
    rw [Bool.and_eq_true] at h
    refine ⟨h.2, ?_⟩
    intro b' hb'
    simp only [List.head?_cons, Option.some.injEq] at hb'
    subst hb'
    exact of_decide_eq_true h.1

/-- Helper: the disjointness check plus per-range well-formedness yield the
chained validity predicate. -/
theorem chained_of_checks_aux (len : Nat) :
    ∀ (l : List Indel) (lo : Nat), disjoint_chain l = true →
      (∀ i ∈ l, i.start ≤ i.stop ∧ i.stop ≤ len) →
      (∀ i, l.head? = some i → lo ≤ i.start) →
      ChainedFrom len lo l := by
  intro l
  induction l with
  | nil =>
    intro lo _ _ _
    trivial
  | cons i rest ih =>
    intro lo hd hel hlo
    have hi := hel i (List.mem_cons_self _ _)
    obtain ⟨hdr, hnext⟩ := disjoint_chain_cons i rest hd
    refine ⟨hlo i rfl, hi.1, hi.2, ?_⟩
    exact ih i.stop hdr (fun j hj => hel j (List.mem_cons_of_mem _ hj)) hnext

/-- Helper: chained validity at offset 0. -/
theorem chained_of_checks (len : Nat) (l : List Indel)
    (hd : disjoint_chain l = true)
    (hel : ∀ i ∈ l, i.start ≤ i.stop ∧ i.stop ≤ len) :
    ChainedFrom len 0 l :=
  chained_of_checks_aux len l 0 hd hel (fun _ _ => Nat.zero_le _)

/-- Helper: chained validity restricted to each element. -/
theorem chained_mem (len lo : Nat) (l : List Indel) (h : ChainedFrom len lo l) :
    ∀ i ∈ l, lo ≤ i.start ∧ i.start ≤ i.stop ∧ i.stop ≤ len := by
  induction l generalizing lo with
  | nil => simp
  | cons i rest ih =>
    obtain ⟨h1, h2, h3, h4⟩ := h
    intro j hj
    rcases List.mem_cons.mp hj with rfl | hj
    · exact ⟨h1, h2, h3⟩
    · have hr := ih i.stop h4 j hj
      exact ⟨le_trans (le_trans h1 h2) hr.1, hr.2⟩

/-- Helper: applying chained, length-preserving indels does not change the
content length. -/
theorem applyIndelsFrom_length :
    ∀ (l : List Indel) (content : Str) (base : Nat),
      ChainedFrom (base + content.length) base l →
      (∀ i ∈ l, i.insert.length = i.stop - i.start) →
      (applyIndelsFrom content base l).length = content.length := by
  intro l
  induction l with
  | nil =>
    intro content base _ _
    rfl
  | cons i rest ih =>
    intro content base hch hlen
    obtain ⟨h0, h1, h2, h3⟩ := hch
    have hins := hlen i (List.mem_cons_self _ _)
    show (content.take (i.start - base) ++ i.insert ++
      applyIndelsFrom (content.drop (i.stop - base)) i.stop rest).length = content.length
    rw [List.length_append, List.length_append, List.length_take]
    have hch2 : ChainedFrom (i.stop + (content.drop (i.stop - base)).length) i.stop rest := by
      rw [List.length_drop]
      have hlen2 : i.stop + (content.length - (i.stop - base)) = base + content.length := by
        omega
      rw [hlen2]
      exact h3
    rw [ih (content.drop (i.stop - base)) i.stop hch2
      (fun j hj => hlen j (List.mem_cons_of_mem _ hj))]
    rw [List.length_drop]
    have hmin : (i.start - base) ⊓ content.length = i.start - base :=
      Nat.min_eq_left (by omega)
    rw [hmin]
    omega

/-- Helper: applying chained, length-preserving indels whose inserted text
contains no newline and whose deleted ranges contain no newline preserves the
newline positions of the content. -/
theorem applyIndelsFrom_newline :
    ∀ (l : List Indel) (content : Str) (base : Nat),
      ChainedFrom (base + content.length) base l →
      (∀ i ∈ l, i.insert.length = i.stop - i.start) →
      (∀ i ∈ l, '\n' ∉ i.insert) →
      (∀ i ∈ l, ∀ ja, i.start ≤ ja → ja < i.stop → content[ja - base]? ≠ some '\n') →
      ∀ j : Nat, ((applyIndelsFrom content base l)[j]? = some '\n') ↔
        (content[j]? = some '\n') := by
  intro l
  induction l with
  | nil =>
    intro content base _ _ _ _ j
    exact Iff.rfl
  | cons i rest ih =>
    intro content base hch hlen hnl hrange j
    obtain ⟨h0, h1, h2, h3⟩ := hch
    have hins := hlen i (List.mem_cons_self _ _)
    have hnli := hnl i (List.mem_cons_self _ _)
    have hri := hrange i (List.mem_cons_self _ _)
    have hAlen : (content.take (i.start - base)).length = i.start - base := by
      rw [List.length_take]
      exact Nat.min_eq_left (by omega)
    have hABlen : (content.take (i.start - base) ++ i.insert).length = i.stop - base := by
      rw [List.length_append, hAlen]
      omega
    show ((content.take (i.start - base) ++ i.insert ++
      applyIndelsFrom (content.drop (i.stop - base)) i.stop rest)[j]? = some '\n') ↔
      (content[j]? = some '\n')
    rcases Nat.lt_or_ge j (i.start - base) with hj | hj
    · -- before the deleted range: the prefix is copied verbatim
      rw [List.getElem?_append, if_pos (by rw [hABlen]; omega),
        List.getElem?_append, if_pos (by rw [hAlen]; omega),
        List.getElem?_take, if_pos hj]
    · rcases Nat.lt_or_ge j (i.stop - base) with hj2 | hj2
      · -- inside the replaced range: neither side holds a newline
        rw [List.getElem?_append, if_pos (by rw [hABlen]; omega),
          List.getElem?_append, if_neg (by rw [hAlen]; omega), hAlen]
        constructor
        · intro hsome
          exact absurd (List.getElem?_mem hsome) hnli
        · intro hsome
          have := hri (j + base) (by omega) (by omega)
          rw [show j + base - base = j from by omega] at this
          exact absurd hsome this
      · -- after the replaced range: recurse into the suffix
        rw [List.getElem?_append, if_neg (by rw [hABlen]; omega), hABlen]
        have hch2 : ChainedFrom (i.stop + (content.drop (i.stop - base)).length) i.stop rest := by
          rw [List.length_drop]
          have hlen2 : i.stop + (content.length - (i.stop - base)) = base + content.length := by
            omega
          rw [hlen2]
          exact h3
        have hrange2 : ∀ i2 ∈ rest, ∀ ja, i2.start ≤ ja → ja < i2.stop →
            (content.drop (i.stop - base))[ja - i.stop]? ≠ some '\n' := by
          intro i2 hi2 ja hja1 hja2
          have hm := chained_mem _ _ rest h3 i2 hi2
          rw [List.getElem?_drop]
          rw [show i.stop - base + (ja - i.stop) = ja - base from by omega]
          exact hrange i2 (List.mem_cons_of_mem _ hi2) ja hja1 hja2
        have hrec := ih (content.drop (i.stop - base)) i.stop hch2
          (fun j2 hj2 => hlen j2 (List.mem_cons_of_mem _ hj2))
          (fun j2 hj2 => hnl j2 (List.mem_cons_of_mem _ hj2))
          hrange2 (j - (i.stop - base))
        rw [hrec, List.getElem?_drop]
        rw [show i.stop - base + (j - (i.stop - base)) = j from by omega]

/-- Helper: after applying chained, length-preserving indels, the inserted
text of every indel sits exactly at its range's positions. -/
theorem applyIndelsFrom_at_insert :
    ∀ (l : List Indel) (content : Str) (base : Nat),
      ChainedFrom (base + content.length) base l →
      (∀ i ∈ l, i.insert.length = i.stop - i.start) →
      ∀ i ∈ l, ∀ k, k < i.insert.length →
        (applyIndelsFrom content base l)[(i.start - base) + k]? = i.insert[k]? := by
  intro l
  induction l with
  | nil =>
    intro content base _ _ i hi
    cases hi
  | cons i rest ih =>
    intro content base hch hlen i2 hi2 k hk
    obtain ⟨h0, h1, h2, h3⟩ := hch
    have hins := hlen i (List.mem_cons_self _ _)
    have hAlen : (content.take (i.start - base)).length = i.start - base := by
      rw [List.length_take]
      exact Nat.min_eq_left (by omega)
    have hABlen : (content.take (i.start - base) ++ i.insert).length = i.stop - base := by
      rw [List.length_append, hAlen]
      omega
    show (content.take (i.start - base) ++ i.insert ++
      applyIndelsFrom (content.drop (i.stop - base)) i.stop rest)[(i2.start - base) + k]? =
      i2.insert[k]?
    rcases List.mem_cons.mp hi2 with rfl | hi2
    · -- the head indel's own insert
      rw [List.getElem?_append, if_pos (by rw [hABlen]; omega),
        List.getElem?_append, if_neg (by rw [hAlen]; omega), hAlen]
      rw [show i2.start - base + k - (i2.start - base) = k from by omega]
    · -- a later indel: its range starts at or after the head's stop
      have hm := chained_mem _ _ rest h3 i2 hi2
      have hins2 := hlen i2 (List.mem_cons_of_mem _ hi2)
      rw [List.getElem?_append, if_neg (by rw [hABlen]; omega), hABlen]
      have hch2 : ChainedFrom (i.stop + (content.drop (i.stop - base)).length) i.stop rest := by
        rw [List.length_drop]
        have hlen2 : i.stop + (content.length - (i.stop - base)) = base + content.length := by
          omega
        rw [hlen2]
        exact h3
      have hrec := ih (content.drop (i.stop - base)) i.stop hch2
        (fun j hj => hlen j (List.mem_cons_of_mem _ hj)) i2 hi2 k hk
      rw [show i2.start - base + k - (i.stop - base) = (i2.start - i.stop) + k from by omega]
      exact hrec

/-- Helper: applying chained, length-preserving indels whose inserted text is
already in place is the identity. -/
theorem applyIndelsFrom_fixed :
    ∀ (l : List Indel) (content : Str) (base : Nat),
      ChainedFrom (base + content.length) base l →
      (∀ i ∈ l, i.insert.length = i.stop - i.start) →
      (∀ i ∈ l, ∀ k, k < i.insert.length →
        content[(i.start - base) + k]? = i.insert[k]?) →
      applyIndelsFrom content base l = content := by
  intro l
  induction l with
  | nil =>
    intro content base _ _ _
    rfl
  | cons i rest ih =>
    intro content base hch hlen hfix
    obtain ⟨h0, h1, h2, h3⟩ := hch
    have hins := hlen i (List.mem_cons_self _ _)
    have hch2 : ChainedFrom (i.stop + (content.drop (i.stop - base)).length) i.stop rest := by
      rw [List.length_drop]
      have hlen2 : i.stop + (content.length - (i.stop - base)) = base + content.length := by
        omega
      rw [hlen2]
      exact h3
    have hfix2 : ∀ i2 ∈ rest, ∀ k, k < i2.insert.length →
        (content.drop (i.stop - base))[(i2.start - i.stop) + k]? = i2.insert[k]? := by
      intro i2 hi2 k hk
      have hm := chained_mem _ _ rest h3 i2 hi2
      rw [List.getElem?_drop]
      rw [show i.stop - base + (i2.start - i.stop + k) = (i2.start - base) + k from by omega]
      exact hfix i2 (List.mem_cons_of_mem _ hi2) k hk
    have hrec := ih (content.drop (i.stop - base)) i.stop hch2
      (fun j hj => hlen j (List.mem_cons_of_mem _ hj)) hfix2
    show content.take (i.start - base) ++ i.insert ++
      applyIndelsFrom (content.drop (i.stop - base)) i.stop rest = content
    rw [hrec]
    have htake : i.insert = (content.drop (i.start - base)).take (i.stop - i.start) := by
      apply List.ext_getElem?
      intro n
      rcases Nat.lt_or_ge n i.insert.length with hn | hn
      · rw [List.getElem?_take, if_pos (by omega), List.getElem?_drop]
        rw [show i.start - base + n = (i.start - base) + n from rfl]
        exact (hfix i (List.mem_cons_self _ _) n hn).symm
      · rw [List.getElem?_eq_none hn, List.getElem?_eq_none]
        rw [List.length_take, List.length_drop]
        omega
    have hdrop : content.drop (i.stop - base) =
        (content.drop (i.start - base)).drop (i.stop - i.start) := by
      rw [List.drop_drop]
      congr 1
      omega
    rw [htake, hdrop, List.append_assoc, List.take_append_drop, List.take_append_drop]

/-- Helper: two contents of equal length with newlines at the same positions
have the same line starts, hence the same line index. -/
theorem lineStarts_congr (a b : Str) (hlen : a.length = b.length)
    (h : ∀ j : Nat, (a[j]? = some '\n') ↔ (b[j]? = some '\n')) :
    lineStarts a = lineStarts b := by
  unfold lineStarts
  rw [hlen]
  congr 1
  congr 1
  apply List.filter_congr
  intro i _
  exact decide_eq_decide.mpr (h i)

/-- C3 (amended): applying a rename plan whose edits are valid in the
plan-time file contents, and then applying it again to the result, yields the
same contents as after the first application, provided every edit replaces a
newline-free range with newline-free text of the same length (the
counterexample shows the unrestricted claim fails as soon as a replacement
changes the length of its range). -/
theorem apply_rename_edits_idempotent (content out : Str) (edits : List TextEdit)
    (indels : List Indel)
    (hconv : convert_edits content edits = some indels)
    (hgood : ∀ i ∈ indels, i.insert.length = i.stop - i.start ∧ '\n' ∉ i.insert ∧
        ∀ j ∈ List.range i.stop, i.start ≤ j → content[j]? ≠ some '\n')
    (happly : apply_rename_edits_to_content content edits = some out) :
    apply_rename_edits_to_content out edits = some out := by
  unfold apply_rename_edits_to_content at happly
  rw [hconv] at happly
  dsimp only at happly
  by_cases hd : disjoint_chain (indels.insertionSort indelLE) = true
  case neg =>
    rw [if_neg hd] at happly
    cases happly
  rw [if_pos hd] at happly
  have hmem : ∀ i ∈ indels.insertionSort indelLE, i ∈ indels := fun i hi =>
    (List.perm_insertionSort indelLE indels).mem_iff.mp hi
  have hbounds := convert_edits_mem content edits indels hconv
  have hch : ChainedFrom content.length 0 (indels.insertionSort indelLE) :=
    chained_of_checks content.length _ hd (fun i hi => hbounds i (hmem i hi))
  have hch0 : ChainedFrom (0 + content.length) 0 (indels.insertionSort indelLE) := by
    rw [Nat.zero_add]
    exact hch
  have hlen : ∀ i ∈ indels.insertionSort indelLE, i.insert.length = i.stop - i.start :=
    fun i hi => (hgood i (hmem i hi)).1
  have hnl : ∀ i ∈ indels.insertionSort indelLE, '\n' ∉ i.insert :=
    fun i hi => (hgood i (hmem i hi)).2.1
  have hrange : ∀ i ∈ indels.insertionSort indelLE, ∀ ja, i.start ≤ ja → ja < i.stop →
      content[ja - 0]? ≠ some '\n' := by
    intro i hi ja h1 h2
    have := (hgood i (hmem i hi)).2.2 ja (List.mem_range.mpr h2) h1
    simpa using this
  cases happly
  have hlength : (applyIndels content (indels.insertionSort indelLE)).length =
      content.length :=
    applyIndelsFrom_length _ content 0 hch0 hlen
  have hnliff : ∀ j : Nat,
      ((applyIndels content (indels.insertionSort indelLE))[j]? = some '\n') ↔
        (content[j]? = some '\n') :=
    fun j => applyIndelsFrom_newline _ content 0 hch0 hlen hnl hrange j
  have hls : lineStarts (applyIndels content (indels.insertionSort indelLE)) =
      lineStarts content :=
    lineStarts_congr _ content hlength hnliff
  have hconv2 : convert_edits (applyIndels content (indels.insertionSort indelLE)) edits =
      some indels :=
    (convert_edits_congr _ content hlength hls edits).trans hconv
  unfold apply_rename_edits_to_content
  rw [hconv2]
  dsimp only
  rw [if_pos hd]
  have hfix : ∀ i ∈ indels.insertionSort indelLE, ∀ k, k < i.insert.length →
      (applyIndels content (indels.insertionSort indelLE))[(i.start - 0) + k]? =
        i.insert[k]? :=
    fun i hi k hk => applyIndelsFrom_at_insert _ content 0 hch0 hlen i hi k hk
  have hchout : ChainedFrom
      (0 + (applyIndels content (indels.insertionSort indelLE)).length) 0
      (indels.insertionSort indelLE) := by
    rw [Nat.zero_add, hlength]
    exact hch
  have hfinal : applyIndels (applyIndels content (indels.insertionSort indelLE))
      (indels.insertionSort indelLE) = applyIndels content (indels.insertionSort indelLE) :=
    applyIndelsFrom_fixed _ _ 0 hchout hlen hfix
  rw [hfinal]

/-- Witness for the amended idempotence at a concrete same-length rename:
"ab" ↦ "xy" and "cd" ↦ "zw" in "ab cd"; the second application of the plan
leaves "xy zw" unchanged. -/
theorem apply_rename_edits_idempotent_witness :
    apply_rename_edits_to_content "ab cd".toList
        [⟨1, 1, 1, 3, "xy".toList⟩, ⟨1, 4, 1, 6, "zw".toList⟩] = some "xy zw".toList ∧
    apply_rename_edits_to_content "xy zw".toList
        [⟨1, 1, 1, 3, "xy".toList⟩, ⟨1, 4, 1, 6, "zw".toList⟩] = some "xy zw".toList :=
  ⟨rfl,
   apply_rename_edits_idempotent "ab cd".toList "xy zw".toList
     [⟨1, 1, 1, 3, "xy".toList⟩, ⟨1, 4, 1, 6, "zw".toList⟩]
     [⟨0, 2, "xy".toList⟩, ⟨3, 5, "zw".toList⟩] rfl (by decide) rfl⟩

end Rustbelt
